import Mathlib

/-!
Verification of the accessibility-tree traversal core of `src/app.py`:
the role aggregator `count_elements` (lines 227-238) and the tree renderer
`display_tree_structure` (lines 76-112).

The trees are Python values: nested dictionaries with string keys, holding
strings, integers, booleans, `None`, lists and further dictionaries.  We embed
them as the inductive type `Value`.  Fallible Python code (attribute errors,
type errors on non-iterable values) is embedded as functions returning
`Option`: `none` marks a raised exception.
-/

/-- A Python value as it occurs in an accessibility-tree snapshot:
`None`, booleans, integers, strings, lists, and dictionaries with string
keys in insertion order. -/
inductive Value where
  | vnone
  | vbool (b : Bool)
  | vint (n : Int)
  | vstr (s : String)
  | vlist (xs : List Value)
  | vdict (kvs : List (String × Value))

/-- Induction over `Value` that hands the inductive hypothesis to every
member of a list or dictionary, bridging the nested occurrences of
`List Value` and `List (String × Value)`. -/
theorem Value.ind (motive : Value → Prop)
    (hnone : motive .vnone) (hbool : ∀ b, motive (.vbool b))
    (hint : ∀ n, motive (.vint n)) (hstr : ∀ s, motive (.vstr s))
    (hlist : ∀ xs, (∀ v ∈ xs, motive v) → motive (.vlist xs))
    (hdict : ∀ kvs, (∀ kv ∈ kvs, motive (Prod.snd kv)) → motive (.vdict kvs)) :
    ∀ v, motive v
  | .vnone => hnone
  | .vbool b => hbool b
  | .vint n => hint n
  | .vstr s => hstr s
  | .vlist xs => hlist xs (fun v hv =>
      have : sizeOf v < 1 + sizeOf xs := by
        have := List.sizeOf_lt_of_mem hv
        omega
      Value.ind motive hnone hbool hint hstr hlist hdict v)
  | .vdict kvs => hdict kvs (fun kv hkv =>
      have : sizeOf kv.2 < 1 + sizeOf kvs := by
        have h1 := List.sizeOf_lt_of_mem hkv
        have h2 : sizeOf kv.2 < sizeOf kv := by
          obtain ⟨a, b⟩ := kv
          simp
        omega
      Value.ind motive hnone hbool hint hstr hlist hdict kv.2)
termination_by v => sizeOf v

mutual
/-- Structural equality of two Python values, written as a Boolean recursion
so that the nested list and dictionary positions terminate structurally. -/
def Value.beq : Value → Value → Bool
  | .vnone, .vnone => true
  | .vbool a, .vbool b => a = b
  | .vint a, .vint b => a = b
  | .vstr a, .vstr b => a = b
  | .vlist xs, .vlist ys => Value.beqList xs ys
  | .vdict xs, .vdict ys => Value.beqKV xs ys
  | _, _ => false

/-- Pointwise equality of two lists of values. -/
def Value.beqList : List Value → List Value → Bool
  | [], [] => true
  | x :: xs, y :: ys => Value.beq x y && Value.beqList xs ys
  | _, _ => false

/-- Pointwise equality of two key-value lists. -/
def Value.beqKV : List (String × Value) → List (String × Value) → Bool
  | [], [] => true
  | (k1, v1) :: xs, (k2, v2) :: ys => k1 = k2 && Value.beq v1 v2 && Value.beqKV xs ys
  | _, _ => false
end

theorem Value.beqList_iff_of (xs : List Value)
    (ih : ∀ v ∈ xs, ∀ b, Value.beq v b = true ↔ v = b) :
    ∀ ys, Value.beqList xs ys = true ↔ xs = ys := by
  induction xs with
  | nil => intro ys; cases ys <;> simp [Value.beqList]
  | cons x xs ihx =>
    intro ys
    cases ys with
    | nil => simp [Value.beqList]
    | cons y ys =>
      have hx := ih x (by simp)
      have hxs := ihx (fun v hv => ih v (by simp [hv]))
      simp [Value.beqList, hx, hxs]

theorem Value.beqKV_iff_of (xs : List (String × Value))
    (ih : ∀ kv ∈ xs, ∀ b, Value.beq (Prod.snd kv) b = true ↔ Prod.snd kv = b) :
    ∀ ys, Value.beqKV xs ys = true ↔ xs = ys := by
  induction xs with
  | nil => intro ys; cases ys <;> simp [Value.beqKV]
  | cons x xs ihx =>
    intro ys
    cases ys with
    | nil => simp [Value.beqKV]
    | cons y ys =>
      obtain ⟨k1, v1⟩ := x
      obtain ⟨k2, v2⟩ := y
      have hx := ih (k1, v1) (by simp)
      have hxs := ihx (fun kv hkv => ih kv (by simp [hkv]))
      simp only [Value.beqKV, Bool.and_eq_true, decide_eq_true_eq, hx, hxs,
        Prod.mk.injEq, List.cons.injEq]
      try tauto

/-- The Boolean equality decides propositional equality. -/
theorem Value.beq_iff (a : Value) : ∀ b, Value.beq a b = true ↔ a = b := by
  induction a using Value.ind with
  | hnone => intro b; cases b <;> simp [Value.beq]
  | hbool a => intro b; cases b <;> simp [Value.beq]
  | hint a => intro b; cases b <;> simp [Value.beq]
  | hstr a => intro b; cases b <;> simp [Value.beq]
  | hlist xs ih =>
    intro b
    cases b <;> simp [Value.beq]
    exact Value.beqList_iff_of xs ih _
  | hdict kvs ih =>
    intro b
    cases b <;> simp [Value.beq]
    exact Value.beqKV_iff_of kvs ih _

instance : DecidableEq Value := fun a b => decidable_of_iff _ (Value.beq_iff a b)

/-- Python truthiness of a value: `None`, `False`, `0`, `""`, `[]` and
an empty dictionary are falsy, everything else is truthy. -/
def Value.falsy : Value → Bool
  | .vnone => true
  | .vbool b => !b
  | .vint n => n = 0
  | .vstr s => s = ""
  | .vlist xs => xs.isEmpty
  | .vdict kvs => kvs.isEmpty

/-- Python truthiness, the positive form. -/
def Value.truthy (v : Value) : Bool := !v.falsy

/-- Whether a value is a dictionary, the `isinstance(node, dict)` test of
`count_elements` (line 231). -/
def Value.isDict : Value → Bool
  | .vdict _ => true
  | _ => false

/-- Dictionary lookup: the value stored under key `k`, scanning entries in
order.  Dictionaries built by the capture library have distinct keys, for
which this is exactly the Python lookup. -/
def lookupKV (k : String) : List (String × Value) → Option Value
  | [] => none
  | (k1, v) :: rest => if k1 = k then some v else lookupKV k rest

/-- Python `node.get(k, d)`: the stored value, or the default `d` when the
key is absent. -/
def getD (kvs : List (String × Value)) (k : String) (d : Value) : Value :=
  (lookupKV k kvs).getD d

/-- One character of the Python `repr` of a string: the backslash, the
active quote character, and the common control characters are escaped. -/
def pyReprChar (q : Char) (c : Char) : String :=
  if c = '\\' then "\\\\"
  else if c = q then "\\" ++ String.mk [q]
  else if c = '\n' then "\\n"
  else if c = '\r' then "\\r"
  else if c = '\t' then "\\t"
  else String.mk [c]

/-- Python `repr` of a string: single-quoted, switching to double quotes
when the text contains a single quote but no double quote. -/
def pyReprString (s : String) : String :=
  let sq : Char := Char.ofNat 39
  let q := if s.data.contains sq && !(s.data.contains '"') then '"' else sq
  String.mk [q] ++ String.join (s.data.map (pyReprChar q)) ++ String.mk [q]

mutual
/-- Python `repr` of a value, used by `str` on lists and dictionaries. -/
def pyRepr : Value → String
  | .vnone => "None"
  | .vbool true => "True"
  | .vbool false => "False"
  | .vint n => toString n
  | .vstr s => pyReprString s
  | .vlist xs => "[" ++ pyReprList xs ++ "]"
  | .vdict kvs => "\x7b" ++ pyReprKVs kvs ++ "\x7d"

/-- Comma-separated `repr` of list elements. -/
def pyReprList : List Value → String
  | [] => ""
  | [x] => pyRepr x
  | x :: y :: rest => pyRepr x ++ ", " ++ pyReprList (y :: rest)

/-- Comma-separated `repr` of dictionary entries. -/
def pyReprKVs : List (String × Value) → String
  | [] => ""
  | [(k, v)] => pyReprString k ++ ": " ++ pyRepr v
  | (k, v) :: kv2 :: rest => pyReprString k ++ ": " ++ pyRepr v ++ ", " ++ pyReprKVs (kv2 :: rest)
end

/-- Python `str` of a value, as interpolated by an f-string: a string is
itself, every other value falls back to its `repr`. -/
def pyStr (v : Value) : String :=
  match v with
  | .vstr s => s
  | v => pyRepr v

/-- The role-to-count mapping built by `count_elements`: a Python
dictionary from role values to integers, entries in insertion order. -/
abbrev Counts := List (Value × Nat)

/-- Dictionary lookup in a counts mapping. -/
def Counts.lookup : Counts → Value → Option Nat
  | [], _ => none
  | (k1, n) :: rest, k => if k1 = k then some n else Counts.lookup rest k

/-- Python `counts.get(role, 0)`. -/
def Counts.get0 (c : Counts) (k : Value) : Nat :=
  (c.lookup k).getD 0

/-- Python dictionary assignment `counts[k] = n`: replace the value of the
first entry whose key equals `k` (the stored key object is kept, as in
Python), or append a new entry at the end. -/
def Counts.set : Counts → Value → Nat → Counts
  | [], k, n => [(k, n)]
  | (k1, n1) :: rest, k, n =>
    if k1 = k then (k1, n) :: rest else (k1, n1) :: Counts.set rest k n

/-- Line 233: `counts[role] = counts.get(role, 0) + 1`. -/
def Counts.incr (c : Counts) (k : Value) : Counts :=
  c.set k (c.get0 k + 1)

mutual
/-- Lines 227-238 of `src/app.py`:

```
def count_elements(node, counts=None):
    if counts is None:
        counts = {}
    if isinstance(node, dict):
        role = node.get("role", "Unknown")
        counts[role] = counts.get(role, 0) + 1
        for child in node.get("children", []):
            count_elements(child, counts)
    return counts
```

The mutable `counts` dictionary is threaded explicitly; the default
`counts=None` call is `count_elements t []`.  `node.get("children", [])`
followed by the `for` loop is fused into the key scan `countChildrenKV`,
whose first hit is the Python dictionary lookup. -/
def count_elements (node : Value) (counts : Counts) : Option Counts :=
  match node with
  | .vdict kvs => countChildrenKV kvs (counts.incr (getD kvs "role" (.vstr "Unknown")))
  | _ => some counts

/-- Scan for the `children` entry; when the key is absent the loop runs
over the default `[]`, a no-op. -/
def countChildrenKV (kvs : List (String × Value)) (counts : Counts) : Option Counts :=
  match kvs with
  | [] => some counts
  | (k, v) :: rest =>
    if k = "children" then countIter v counts else countChildrenKV rest counts

/-- `for child in v`: iterating a list visits its elements; iterating a
string yields its characters and iterating a dictionary yields its keys,
all of which are strings, hence non-dictionaries that contribute nothing;
every other value raises `TypeError` (`none`). -/
def countIter (v : Value) (counts : Counts) : Option Counts :=
  match v with
  | .vlist cs => countList cs counts
  | .vstr _ => some counts
  | .vdict _ => some counts
  | _ => none

/-- The body of the `for` loop over a list of children. -/
def countList (cs : List Value) (counts : Counts) : Option Counts :=
  match cs with
  | [] => some counts
  | c :: rest =>
    match count_elements c counts with
    | some counts2 => countList rest counts2
    | none => none
end

/-- One expandable display section emitted by the renderer: the expander
label and default expansion state (line 86), the attribute lines of the two
columns (lines 89-105), the optional children-count line (line 110), and
the recursively rendered child sections nested inside the expander. -/
inductive DSection where
  | mk (label : String) (expanded : Bool) (col1 : List String) (col2 : List String)
      (childrenLine : Option String) (children : List DSection)

/-- The expander label of a section. -/
def DSection.label : DSection → String
  | .mk l _ _ _ _ _ => l

/-- The default expansion state of a section. -/
def DSection.expanded : DSection → Bool
  | .mk _ e _ _ _ _ => e

/-- The attribute lines of the left column of a section. -/
def DSection.col1 : DSection → List String
  | .mk _ _ c _ _ _ => c

/-- The attribute lines of the right column of a section. -/
def DSection.col2 : DSection → List String
  | .mk _ _ _ c _ _ => c

/-- The children-count line of a section, when shown. -/
def DSection.childrenLine : DSection → Option String
  | .mk _ _ _ _ l _ => l

/-- The nested child sections of a section. -/
def DSection.children : DSection → List DSection
  | .mk _ _ _ _ _ cs => cs

/-- Line 86: the expander label
`f"📱 {role}" + (f" - {title}" if title else "")`. -/
def nodeLabel (kvs : List (String × Value)) : String :=
  let roleV := getD kvs "role" (.vstr "Unknown")
  let titleV := getD kvs "title" (.vstr "")
  "📱 " ++ pyStr roleV ++ (if titleV.truthy then " - " ++ pyStr titleV else "")

/-- Lines 89-97, the left column: the title when truthy; the value when
truthy and its stringification is not equal (as a Python object comparison)
to the title; the bounds when truthy; the enabled flag whenever it is not
`None` (so an explicit `False` is shown). -/
def nodeCol1 (kvs : List (String × Value)) : List String :=
  let titleV := getD kvs "title" (.vstr "")
  let valueV := getD kvs "value" (.vstr "")
  let boundsV := getD kvs "bounds" .vnone
  let enabledV := getD kvs "enabled" .vnone
  (if titleV.truthy then ["Title: " ++ pyStr titleV] else []) ++
  (if valueV.truthy ∧ Value.vstr (pyStr valueV) ≠ titleV then
    ["Value: " ++ pyStr valueV] else []) ++
  (if boundsV.truthy then ["Bounds: " ++ pyStr boundsV] else []) ++
  (if enabledV ≠ Value.vnone then ["Enabled: " ++ pyStr enabledV] else [])

/-- Lines 99-105, the right column: description, help and subrole, each
shown when truthy. -/
def nodeCol2 (kvs : List (String × Value)) : List String :=
  let descV := getD kvs "description" .vnone
  let helpV := getD kvs "help" .vnone
  let subroleV := getD kvs "subrole" .vnone
  (if descV.truthy then ["Description: " ++ pyStr descV] else []) ++
  (if helpV.truthy then ["Help: " ++ pyStr helpV] else []) ++
  (if subroleV.truthy then ["Subrole: " ++ pyStr subroleV] else [])

mutual
/-- Lines 76-112 of `src/app.py`:

```
def display_tree_structure(tree, max_depth=3, current_depth=0):
    if current_depth > max_depth or not tree:
        return
    role = tree.get("role", "Unknown")
    title = tree.get("title", "")
    value = tree.get("value", "")
    with st.expander(f"📱 [role]" + (f" - [title]" if title else ""),
                     expanded=(current_depth < 2)):
        ... columns with title/value/bounds/enabled and
            description/help/subrole lines ...
        children = tree.get("children", [])
        if children:
            st.text(f"Children: [len(children)]")
            for i, child in enumerate(children):
                display_tree_structure(child, max_depth, current_depth + 1)
```

The emitted Streamlit widgets are embedded as the returned list of
`DSection` values: no output (`[]`) for the terminal cases, otherwise one
section holding the label, columns, children line and nested child
sections.  A call on a truthy non-dictionary raises `AttributeError` on
`.get` (`none`).  The scan `displayChildrenKV` is the
`tree.get("children", [])` lookup fused with the truthiness test and the
loop. -/
def display_tree_structure (tree : Value) (max_depth : Int) (current_depth : Int) :
    Option (List DSection) :=
  if current_depth > max_depth || tree.falsy then some []
  else
    match tree with
    | .vdict kvs =>
      match displayChildrenKV kvs max_depth current_depth with
      | some (cline, secs) =>
        some [.mk (nodeLabel kvs) (decide (current_depth < 2))
          (nodeCol1 kvs) (nodeCol2 kvs) cline secs]
      | none => none
    | _ => none

/-- Scan for the `children` entry; an absent key is the default `[]`,
which is falsy: no children line and no recursion. -/
def displayChildrenKV (kvs : List (String × Value)) (max_depth current_depth : Int) :
    Option (Option String × List DSection) :=
  match kvs with
  | [] => some (none, [])
  | (k, v) :: rest =>
    if k = "children" then displayChildrenVal v max_depth current_depth
    else displayChildrenKV rest max_depth current_depth

/-- Lines 108-112 applied to the `children` value `v`.  A falsy `v` is
skipped.  A truthy list shows the count line and renders each element one
level deeper.  A truthy string iterates over its characters: each is a
truthy non-dictionary, so the recursive call returns nothing when the depth
is exhausted and raises `AttributeError` otherwise.  A truthy dictionary
iterates over its keys, likewise strings, where an empty-string key is
falsy and skipped.  Any other truthy value has no `len` (`TypeError`). -/
def displayChildrenVal (v : Value) (max_depth current_depth : Int) :
    Option (Option String × List DSection) :=
  if v.falsy then some (none, [])
  else
    match v with
    | .vlist cs =>
      match displayList cs max_depth (current_depth + 1) with
      | some secs => some (some ("Children: " ++ toString cs.length), secs)
      | none => none
    | .vstr s =>
      if current_depth + 1 > max_depth then
        some (some ("Children: " ++ toString s.length), [])
      else none
    | .vdict kvs2 =>
      if current_depth + 1 > max_depth || kvs2.all (fun kv => kv.1 == "") then
        some (some ("Children: " ++ toString kvs2.length), [])
      else none
    | _ => none

/-- The loop of line 111: render each child in order and concatenate the
emitted sections. -/
def displayList (cs : List Value) (max_depth current_depth : Int) :
    Option (List DSection) :=
  match cs with
  | [] => some []
  | c :: rest =>
    match display_tree_structure c max_depth current_depth with
    | some secs =>
      match displayList rest max_depth current_depth with
      | some more => some (secs ++ more)
      | none => none
    | none => none
end

mutual
/-- The multiset of role values that `count_elements` tallies over a tree:
one role per dictionary node, `"Unknown"` standing in for an absent key,
gathered in traversal order. -/
def rolesOf : Value → List Value
  | .vdict kvs => getD kvs "role" (.vstr "Unknown") :: rolesChildrenKV kvs
  | _ => []

/-- Roles contributed through the `children` entry of a node. -/
def rolesChildrenKV : List (String × Value) → List Value
  | [] => []
  | (k, v) :: rest => if k = "children" then rolesIter v else rolesChildrenKV rest

/-- Roles contributed by iterating a `children` value: only a list
contributes, mirroring `countIter`. -/
def rolesIter : Value → List Value
  | .vlist cs => rolesList cs
  | _ => []

/-- Roles of a list of children, concatenated in order. -/
def rolesList : List Value → List Value
  | [] => []
  | c :: rest => rolesOf c ++ rolesList rest
end

mutual
/-- The number of nodes of a tree: every dictionary reached through
`children` lists counts as one node, the root included. -/
def numNodes : Value → Nat
  | .vdict kvs => 1 + numNodesChildrenKV kvs
  | _ => 0

/-- Nodes contributed through the `children` entry. -/
def numNodesChildrenKV : List (String × Value) → Nat
  | [] => 0
  | (k, v) :: rest => if k = "children" then numNodesIter v else numNodesChildrenKV rest

/-- Nodes contributed by iterating a `children` value. -/
def numNodesIter : Value → Nat
  | .vlist cs => numNodesList cs
  | _ => 0

/-- Nodes of a list of children. -/
def numNodesList : List Value → Nat
  | [] => 0
  | c :: rest => numNodes c + numNodesList rest
end

mutual
/-- A well-formed accessibility tree: a dictionary whose `children` entry,
when present, is a list of well-formed trees. -/
def WF : Value → Prop
  | .vdict kvs => WFChildrenKV kvs
  | _ => False

/-- Well-formedness of the entries of a node: the `children` value, if
any, must iterate as a list of well-formed trees. -/
def WFChildrenKV : List (String × Value) → Prop
  | [] => True
  | (k, v) :: rest => if k = "children" then WFIter v else WFChildrenKV rest

/-- A well-formed `children` value is a list of well-formed trees. -/
def WFIter : Value → Prop
  | .vlist cs => WFList cs
  | _ => False

/-- Every member of the list is a well-formed tree. -/
def WFList : List Value → Prop
  | [] => True
  | c :: rest => WF c ∧ WFList rest
end

mutual
/-- The sibling-reversed copy of a tree: every `children` list, at every
depth, is reversed. -/
def revTree : Value → Value
  | .vdict kvs => .vdict (revKVs kvs)
  | v => v

/-- Reverse the `children` entry of a node, leaving other entries as they
are. -/
def revKVs : List (String × Value) → List (String × Value)
  | [] => []
  | (k, v) :: rest =>
    (k, if k = "children" then revChildren v else v) :: revKVs rest

/-- Reverse a `children` value: a list is reversed after reversing each
member tree; a non-list is left alone. -/
def revChildren : Value → Value
  | .vlist cs => .vlist (revList cs).reverse
  | v => v

/-- Reverse the children of each member of a list. -/
def revList : List Value → List Value
  | [] => []
  | c :: rest => revTree c :: revList rest
end

/-- Multiplicity of a key in a list of role values. -/
def countKey (ms : List Value) (k : Value) : Nat :=
  match ms with
  | [] => 0
  | m :: rest => (if m = k then 1 else 0) + countKey rest k

theorem countKey_append (ms1 ms2 : List Value) (k : Value) :
    countKey (ms1 ++ ms2) k = countKey ms1 k + countKey ms2 k := by
  induction ms1 with
  | nil => simp [countKey]
  | cons m rest ih => simp [countKey, ih]; omega

theorem countKey_eq_zero_of_not_mem {ms : List Value} {k : Value} (h : k ∉ ms) :
    countKey ms k = 0 := by
  induction ms with
  | nil => simp [countKey]
  | cons m rest ih =>
    have hm : m ≠ k := fun he => h (by simp [he])
    have hr : k ∉ rest := fun he => h (by simp [he])
    simp [countKey, hm, ih hr]

theorem countKey_pos_iff_mem (ms : List Value) (k : Value) :
    0 < countKey ms k ↔ k ∈ ms := by
  induction ms with
  | nil => simp [countKey]
  | cons m rest ih =>
    by_cases hm : m = k
    · subst hm; simp [countKey]
    · simp only [countKey, if_neg hm, Nat.zero_add, ih, List.mem_cons]
      constructor
      · exact fun h => Or.inr h
      · rintro (he | h)
        · exact absurd he.symm hm
        · exact h

theorem Counts.lookup_set (c : Counts) (k : Value) (n : Nat) (k1 : Value) :
    (c.set k n).lookup k1 = if k1 = k then some n else c.lookup k1 := by
  induction c with
  | nil =>
    simp only [Counts.set, Counts.lookup]
    by_cases h : k = k1
    · subst h; simp
    · have h2 : ¬ k1 = k := fun he => h he.symm
      simp [h, h2]
  | cons hd rest ih =>
    obtain ⟨k2, n2⟩ := hd
    simp only [Counts.set]
    by_cases h2 : k2 = k
    · subst h2
      simp only [if_pos rfl, Counts.lookup]
      by_cases h1 : k2 = k1
      · subst h1; simp
      · have h1b : ¬ k1 = k2 := fun he => h1 he.symm
        simp [h1, h1b]
    · simp only [if_neg h2, Counts.lookup, ih]
      by_cases h1 : k2 = k1
      · subst h1
        simp [h2]
      · simp [h1]

theorem Counts.lookup_incr (c : Counts) (k0 k : Value) :
    (c.incr k0).lookup k = if k = k0 then some (c.get0 k0 + 1) else c.lookup k := by
  rw [Counts.incr, Counts.lookup_set]

/-- The result `r` of an aggregation step relates to the accumulator it
started from and the multiset `ms` of roles it tallied: each key is bound
in `r` exactly when it was bound before or occurs in `ms`, and its count
grows by its multiplicity in `ms`. -/
def CountsRel (acc : Counts) (ms : List Value) (r : Counts) : Prop :=
  ∀ k, r.lookup k =
    if (acc.lookup k).isSome = true ∨ k ∈ ms then
      some (acc.get0 k + countKey ms k)
    else none

theorem CountsRel.refl_nil (c : Counts) : CountsRel c [] c := by
  intro k
  cases h : c.lookup k <;> simp [countKey, h, Counts.get0]

theorem CountsRel.incr_single (c : Counts) (k0 : Value) :
    CountsRel c [k0] (c.incr k0) := by
  intro k
  rw [Counts.lookup_incr]
  by_cases h : k = k0
  · subst h; simp [countKey]
  · have h2 : ¬ k0 = k := fun he => h he.symm
    rw [if_neg h]
    cases hc : c.lookup k with
    | none => simp [hc, h, countKey, h2]
    | some m => simp [hc, h, countKey, h2, Counts.get0]

theorem CountsRel.comp {acc c1 c2 : Counts} {ms1 ms2 : List Value}
    (h1 : CountsRel acc ms1 c1) (h2 : CountsRel c1 ms2 c2) :
    CountsRel acc (ms1 ++ ms2) c2 := by
  intro k
  have e1 := h1 k
  have e2 := h2 k
  by_cases hc : (acc.lookup k).isSome = true ∨ k ∈ ms1
  · rw [if_pos hc] at e1
    have hg : c1.get0 k = acc.get0 k + countKey ms1 k := by
      simp [Counts.get0, e1]
    have hs : (c1.lookup k).isSome = true := by simp [e1]
    rw [if_pos (Or.inl hs)] at e2
    have hc2 : (acc.lookup k).isSome = true ∨ k ∈ ms1 ++ ms2 :=
      hc.imp id (fun h => List.mem_append.2 (Or.inl h))
    rw [e2, hg, if_pos hc2, countKey_append]
    congr 1
    omega
  · have hA : ¬ (acc.lookup k).isSome = true := fun h => hc (Or.inl h)
    have hm1 : k ∉ ms1 := fun h => hc (Or.inr h)
    rw [if_neg hc] at e1
    have hg1 : c1.get0 k = 0 := by simp [Counts.get0, e1]
    have hs1 : ¬ (c1.lookup k).isSome = true := by simp [e1]
    have hacc0 : acc.get0 k = 0 := by
      cases hl : acc.lookup k with
      | none => simp [Counts.get0, hl]
      | some n => exact absurd (by simp [hl]) hA
    have hk1 : countKey ms1 k = 0 := countKey_eq_zero_of_not_mem hm1
    by_cases hm2 : k ∈ ms2
    · rw [if_pos (Or.inr hm2)] at e2
      rw [e2, hg1, if_pos (Or.inr (List.mem_append.2 (Or.inr hm2))), countKey_append,
        hacc0, hk1]
      simp
    · rw [if_neg (by simp [hs1, hm2])] at e2
      rw [e2, if_neg]
      intro h
      rcases h with h | h
      · exact hA h
      · rcases List.mem_append.1 h with h | h
        · exact hm1 h
        · exact hm2 h

theorem countList_rel (cs : List Value)
    (ih : ∀ c ∈ cs, ∀ acc r, count_elements c acc = some r → CountsRel acc (rolesOf c) r) :
    ∀ acc r, countList cs acc = some r → CountsRel acc (rolesList cs) r := by
  induction cs with
  | nil =>
    intro acc r h
    simp [countList] at h
    subst h
    exact CountsRel.refl_nil _
  | cons c rest ihr =>
    intro acc r h
    rw [countList] at h
    cases h1 : count_elements c acc with
    | none => rw [h1] at h; simp at h
    | some c1 =>
      rw [h1] at h
      have r1 := ih c (by simp) acc c1 h1
      have r2 := ihr (fun x hx => ih x (by simp [hx])) c1 r h
      have := CountsRel.comp r1 r2
      simpa [rolesList] using this

theorem countChildrenKV_rel (kvs : List (String × Value))
    (ih : ∀ kv ∈ kvs, ∀ acc r, countIter (Prod.snd kv) acc = some r →
      CountsRel acc (rolesIter (Prod.snd kv)) r) :
    ∀ acc r, countChildrenKV kvs acc = some r → CountsRel acc (rolesChildrenKV kvs) r := by
  induction kvs with
  | nil =>
    intro acc r h
    simp [countChildrenKV] at h
    subst h
    exact CountsRel.refl_nil _
  | cons kv rest ihr =>
    obtain ⟨k, v⟩ := kv
    intro acc r h
    rw [countChildrenKV] at h
    by_cases hk : k = "children"
    · rw [if_pos hk] at h
      have := ih (k, v) (by simp) acc r h
      simpa [rolesChildrenKV, hk] using this
    · rw [if_neg hk] at h
      have := ihr (fun x hx => ih x (by simp [hx])) acc r h
      simpa [rolesChildrenKV, hk] using this

/-- The central bookkeeping fact about the aggregator: a successful run
over `v` binds exactly the keys already bound or occurring as roles in
`v`, and raises each count by the multiplicity of the key among the roles
of `v`. -/
theorem count_elements_rel (v : Value) :
    (∀ acc r, count_elements v acc = some r → CountsRel acc (rolesOf v) r) ∧
    (∀ acc r, countIter v acc = some r → CountsRel acc (rolesIter v) r) := by
  induction v using Value.ind with
  | hnone =>
    constructor
    · intro acc r h
      simp [count_elements] at h
      subst h
      exact CountsRel.refl_nil _
    · intro acc r h
      simp [countIter] at h
  | hbool b =>
    constructor
    · intro acc r h
      simp [count_elements] at h
      subst h
      exact CountsRel.refl_nil _
    · intro acc r h
      simp [countIter] at h
  | hint n =>
    constructor
    · intro acc r h
      simp [count_elements] at h
      subst h
      exact CountsRel.refl_nil _
    · intro acc r h
      simp [countIter] at h
  | hstr s =>
    constructor
    · intro acc r h
      simp [count_elements] at h
      subst h
      exact CountsRel.refl_nil _
    · intro acc r h
      simp [countIter] at h
      subst h
      exact CountsRel.refl_nil _
  | hlist xs ih =>
    constructor
    · intro acc r h
      simp [count_elements] at h
      subst h
      exact CountsRel.refl_nil _
    · intro acc r h
      rw [countIter] at h
      have := countList_rel xs (fun c hc => (ih c hc).1) acc r h
      simpa [rolesIter] using this
  | hdict kvs ih =>
    constructor
    · intro acc r h
      rw [count_elements] at h
      have hrel := countChildrenKV_rel kvs (fun kv hkv => (ih kv hkv).2)
        (acc.incr (getD kvs "role" (.vstr "Unknown"))) r h
      have hstep := CountsRel.incr_single acc (getD kvs "role" (.vstr "Unknown"))
      have := CountsRel.comp hstep hrel
      simpa [rolesOf] using this
    · intro acc r h
      simp [countIter] at h
      subst h
      exact CountsRel.refl_nil _

/-- The sum of all counts stored in a mapping, duplicates included. -/
def sumCounts : Counts → Nat
  | [] => 0
  | (_, n) :: rest => n + sumCounts rest

theorem sumCounts_incr (c : Counts) (k : Value) :
    sumCounts (c.incr k) = sumCounts c + 1 := by
  induction c with
  | nil => simp [Counts.incr, Counts.set, Counts.get0, Counts.lookup, sumCounts]
  | cons hd rest ih =>
    obtain ⟨k1, n1⟩ := hd
    by_cases h : k1 = k
    · subst h
      simp [Counts.incr, Counts.set, Counts.get0, Counts.lookup, sumCounts]
      omega
    · have h2 : ¬ k1 = k := h
      simp only [Counts.incr, Counts.set, if_neg h2, Counts.get0, Counts.lookup,
        sumCounts] at ih ⊢
      omega

theorem countList_sum (cs : List Value)
    (ih : ∀ c ∈ cs, ∀ acc r, count_elements c acc = some r →
      sumCounts r = sumCounts acc + numNodes c) :
    ∀ acc r, countList cs acc = some r → sumCounts r = sumCounts acc + numNodesList cs := by
  induction cs with
  | nil =>
    intro acc r h
    simp [countList] at h
    subst h
    simp [numNodesList]
  | cons c rest ihr =>
    intro acc r h
    rw [countList] at h
    cases h1 : count_elements c acc with
    | none => rw [h1] at h; simp at h
    | some c1 =>
      rw [h1] at h
      have e1 := ih c (by simp) acc c1 h1
      have e2 := ihr (fun x hx => ih x (by simp [hx])) c1 r h
      simp [numNodesList, e2, e1]
      omega

theorem countChildrenKV_sum (kvs : List (String × Value))
    (ih : ∀ kv ∈ kvs, ∀ acc r, countIter (Prod.snd kv) acc = some r →
      sumCounts r = sumCounts acc + numNodesIter (Prod.snd kv)) :
    ∀ acc r, countChildrenKV kvs acc = some r →
      sumCounts r = sumCounts acc + numNodesChildrenKV kvs := by
  induction kvs with
  | nil =>
    intro acc r h
    simp [countChildrenKV] at h
    subst h
    simp [numNodesChildrenKV]
  | cons kv rest ihr =>
    obtain ⟨k, v⟩ := kv
    intro acc r h
    rw [countChildrenKV] at h
    by_cases hk : k = "children"
    · rw [if_pos hk] at h
      have := ih (k, v) (by simp) acc r h
      simpa [numNodesChildrenKV, hk] using this
    · rw [if_neg hk] at h
      have := ihr (fun x hx => ih x (by simp [hx])) acc r h
      simpa [numNodesChildrenKV, hk] using this

/-- A successful run of the aggregator raises the total of the stored
counts by exactly the number of nodes of the tree. -/
theorem count_elements_sum (v : Value) :
    (∀ acc r, count_elements v acc = some r →
      sumCounts r = sumCounts acc + numNodes v) ∧
    (∀ acc r, countIter v acc = some r →
      sumCounts r = sumCounts acc + numNodesIter v) := by
  induction v using Value.ind with
  | hnone =>
    constructor
    · intro acc r h
      simp [count_elements] at h
      subst h
      simp [numNodes]
    · intro acc r h
      simp [countIter] at h
  | hbool b =>
    constructor
    · intro acc r h
      simp [count_elements] at h
      subst h
      simp [numNodes]
    · intro acc r h
      simp [countIter] at h
  | hint n =>
    constructor
    · intro acc r h
      simp [count_elements] at h
      subst h
      simp [numNodes]
    · intro acc r h
      simp [countIter] at h
  | hstr s =>
    constructor
    · intro acc r h
      simp [count_elements] at h
      subst h
      simp [numNodes]
    · intro acc r h
      simp [countIter] at h
      subst h
      simp [numNodesIter]
  | hlist xs ih =>
    constructor
    · intro acc r h
      simp [count_elements] at h
      subst h
      simp [numNodes]
    · intro acc r h
      rw [countIter] at h
      have := countList_sum xs (fun c hc => (ih c hc).1) acc r h
      simpa [numNodesIter] using this
  | hdict kvs ih =>
    constructor
    · intro acc r h
      rw [count_elements] at h
      have e1 := countChildrenKV_sum kvs (fun kv hkv => (ih kv hkv).2)
        (acc.incr (getD kvs "role" (.vstr "Unknown"))) r h
      rw [e1, sumCounts_incr]
      simp [numNodes]
      omega
    · intro acc r h
      simp [countIter] at h
      subst h
      simp [numNodesIter]

theorem countList_isSome (cs : List Value)
    (ih : ∀ c ∈ cs, WF c → ∀ acc, ∃ r, count_elements c acc = some r) :
    WFList cs → ∀ acc, ∃ r, countList cs acc = some r := by
  induction cs with
  | nil => intro _ acc; exact ⟨acc, by simp [countList]⟩
  | cons c rest ihr =>
    intro hwf acc
    rw [WFList] at hwf
    obtain ⟨r1, h1⟩ := ih c (by simp) hwf.1 acc
    obtain ⟨r2, h2⟩ := ihr (fun x hx => ih x (by simp [hx])) hwf.2 r1
    exact ⟨r2, by simp [countList, h1, h2]⟩

theorem countChildrenKV_isSome (kvs : List (String × Value))
    (ih : ∀ kv ∈ kvs, WFIter (Prod.snd kv) → ∀ acc, ∃ r, countIter (Prod.snd kv) acc = some r) :
    WFChildrenKV kvs → ∀ acc, ∃ r, countChildrenKV kvs acc = some r := by
  induction kvs with
  | nil => intro _ acc; exact ⟨acc, by simp [countChildrenKV]⟩
  | cons kv rest ihr =>
    obtain ⟨k, v⟩ := kv
    intro hwf acc
    rw [WFChildrenKV] at hwf
    by_cases hk : k = "children"
    · rw [if_pos hk] at hwf
      obtain ⟨r, h⟩ := ih (k, v) (by simp) hwf acc
      exact ⟨r, by rw [countChildrenKV, if_pos hk]; exact h⟩
    · rw [if_neg hk] at hwf
      obtain ⟨r, h⟩ := ihr (fun x hx => ih x (by simp [hx])) hwf acc
      exact ⟨r, by rw [countChildrenKV, if_neg hk]; exact h⟩

/-- On a well-formed tree the aggregator never raises: every run returns
a mapping, whatever the starting accumulator. -/
theorem count_elements_isSome (v : Value) :
    (WF v → ∀ acc, ∃ r, count_elements v acc = some r) ∧
    (WFIter v → ∀ acc, ∃ r, countIter v acc = some r) := by
  induction v using Value.ind with
  | hnone => exact ⟨fun h => absurd h (by simp [WF]), fun h => absurd h (by simp [WFIter])⟩
  | hbool b => exact ⟨fun h => absurd h (by simp [WF]), fun h => absurd h (by simp [WFIter])⟩
  | hint n => exact ⟨fun h => absurd h (by simp [WF]), fun h => absurd h (by simp [WFIter])⟩
  | hstr s => exact ⟨fun h => absurd h (by simp [WF]), fun h => absurd h (by simp [WFIter])⟩
  | hlist xs ih =>
    constructor
    · intro h; exact absurd h (by simp [WF])
    · intro hwf acc
      rw [WFIter] at hwf
      obtain ⟨r, hr⟩ := countList_isSome xs (fun c hc => (ih c hc).1) hwf acc
      exact ⟨r, by rw [countIter]; exact hr⟩
  | hdict kvs ih =>
    constructor
    · intro hwf acc
      rw [WF] at hwf
      obtain ⟨r, hr⟩ := countChildrenKV_isSome kvs (fun kv hkv => (ih kv hkv).2) hwf
        (acc.incr (getD kvs "role" (.vstr "Unknown")))
      exact ⟨r, by rw [count_elements]; exact hr⟩
    · intro h; exact absurd h (by simp [WFIter])

theorem lookupKV_revKVs (k : String) (hk : ¬ k = "children") (kvs : List (String × Value)) :
    lookupKV k (revKVs kvs) = lookupKV k kvs := by
  induction kvs with
  | nil => simp [revKVs]
  | cons kv rest ih =>
    obtain ⟨k1, v⟩ := kv
    by_cases h1 : k1 = k
    · subst h1
      simp [revKVs, lookupKV, hk]
    · simp [revKVs, lookupKV, h1, ih]

theorem rolesList_append (xs ys : List Value) :
    rolesList (xs ++ ys) = rolesList xs ++ rolesList ys := by
  induction xs with
  | nil => simp [rolesList]
  | cons c rest ih => simp [rolesList, ih]

theorem rolesList_revList_reverse_countKey (cs : List Value)
    (ih : ∀ c ∈ cs, ∀ k, countKey (rolesOf (revTree c)) k = countKey (rolesOf c) k) :
    ∀ k, countKey (rolesList ((revList cs).reverse)) k = countKey (rolesList cs) k := by
  induction cs with
  | nil => intro k; simp [revList, rolesList]
  | cons c rest ihr =>
    intro k
    have hc := ih c (by simp) k
    have hr := ihr (fun x hx => ih x (by simp [hx])) k
    rw [revList, List.reverse_cons, rolesList_append, countKey_append]
    simp only [rolesList, List.append_nil]
    rw [hr, hc]
    rw [countKey_append]
    omega

theorem rolesChildrenKV_revKVs_countKey (kvs : List (String × Value))
    (ih : ∀ kv ∈ kvs, ∀ k, countKey (rolesIter (revChildren (Prod.snd kv))) k =
      countKey (rolesIter (Prod.snd kv)) k) :
    ∀ k, countKey (rolesChildrenKV (revKVs kvs)) k = countKey (rolesChildrenKV kvs) k := by
  induction kvs with
  | nil => intro k; simp [revKVs, rolesChildrenKV]
  | cons kv rest ihr =>
    obtain ⟨k1, v⟩ := kv
    intro k
    by_cases h1 : k1 = "children"
    · have hv := ih (k1, v) (by simp) k
      simp [revKVs, rolesChildrenKV, h1, hv]
    · have hrest := ihr (fun x hx => ih x (by simp [hx])) k
      simp [revKVs, rolesChildrenKV, h1, hrest]

/-- Reversing every sibling list leaves the multiplicity of each role
unchanged. -/
theorem revTree_rolesOf_countKey (v : Value) :
    (∀ k, countKey (rolesOf (revTree v)) k = countKey (rolesOf v) k) ∧
    (∀ k, countKey (rolesIter (revChildren v)) k = countKey (rolesIter v) k) := by
  induction v using Value.ind with
  | hnone => exact ⟨fun k => by simp [revTree], fun k => by simp [revChildren]⟩
  | hbool b => exact ⟨fun k => by simp [revTree], fun k => by simp [revChildren]⟩
  | hint n => exact ⟨fun k => by simp [revTree], fun k => by simp [revChildren]⟩
  | hstr s => exact ⟨fun k => by simp [revTree], fun k => by simp [revChildren]⟩
  | hlist xs ih =>
    constructor
    · intro k; simp [revTree]
    · intro k
      rw [revChildren]
      simp only [rolesIter]
      exact rolesList_revList_reverse_countKey xs (fun c hc => (ih c hc).1) k
  | hdict kvs ih =>
    constructor
    · intro k
      have hrole : lookupKV "role" (revKVs kvs) = lookupKV "role" kvs :=
        lookupKV_revKVs "role" (by decide) kvs
      have hscan := rolesChildrenKV_revKVs_countKey kvs (fun kv hkv => (ih kv hkv).2) k
      rw [revTree]
      simp only [rolesOf, countKey, getD, hrole, hscan]
    · intro k
      simp [revChildren, rolesIter]

theorem revTree_rolesOf_mem (v : Value) (k : Value) :
    k ∈ rolesOf (revTree v) ↔ k ∈ rolesOf v := by
  rw [← countKey_pos_iff_mem, ← countKey_pos_iff_mem,
    (revTree_rolesOf_countKey v).1 k]

theorem display_of_depth (tree : Value) (md cd : Int) (h : cd > md) :
    display_tree_structure tree md cd = some [] := by
  rw [display_tree_structure.eq_def]
  split
  · rfl
  · rename_i hc
    simp only [Bool.or_eq_true, decide_eq_true_eq] at hc
    exact absurd (Or.inl h) hc

theorem display_falsy (tree : Value) (md cd : Int) (h : tree.falsy = true) :
    display_tree_structure tree md cd = some [] := by
  rw [display_tree_structure.eq_def]
  split
  · rfl
  · rename_i hc
    simp only [Bool.or_eq_true, decide_eq_true_eq] at hc
    exact absurd (Or.inr h) hc

theorem displayList_of_depth (cs : List Value) (md cd : Int) (h : cd > md) :
    displayList cs md cd = some [] := by
  induction cs with
  | nil => simp [displayList]
  | cons c rest ih => simp [displayList, display_of_depth c md cd h, ih]

theorem WFIter_eq (v : Value) (h : WFIter v) : ∃ cs, v = .vlist cs ∧ WFList cs := by
  cases v with
  | vlist cs => exact ⟨cs, rfl, by rw [WFIter] at h; exact h⟩
  | vnone => exact absurd h (by simp [WFIter])
  | vbool b => exact absurd h (by simp [WFIter])
  | vint n => exact absurd h (by simp [WFIter])
  | vstr s => exact absurd h (by simp [WFIter])
  | vdict kvs => exact absurd h (by simp [WFIter])

theorem displayChildrenKV_of_depth (kvs : List (String × Value)) (md cd : Int)
    (hd : cd + 1 > md) (hwf : WFChildrenKV kvs) :
    ∃ cl, displayChildrenKV kvs md cd = some (cl, []) := by
  induction kvs with
  | nil => exact ⟨none, by simp [displayChildrenKV]⟩
  | cons kv rest ih =>
    obtain ⟨k, v⟩ := kv
    rw [WFChildrenKV] at hwf
    by_cases hk : k = "children"
    · rw [if_pos hk] at hwf
      obtain ⟨cs, rfl, hcs⟩ := WFIter_eq v hwf
      by_cases hf : (Value.vlist cs).falsy
      · exact ⟨none, by simp [displayChildrenKV, hk, displayChildrenVal, hf]⟩
      · refine ⟨some ("Children: " ++ toString cs.length), ?_⟩
        simp [displayChildrenKV, hk, displayChildrenVal, hf,
          displayList_of_depth cs md (cd + 1) hd]
    · rw [if_neg hk] at hwf
      obtain ⟨cl, hcl⟩ := ih hwf
      exact ⟨cl, by simp [displayChildrenKV, hk, hcl]⟩

theorem ne_of_data_head (s t a b : String) (c d : Char)
    (hc : s.data.head? = some c) (hd : t.data.head? = some d) (hcd : c ≠ d) :
    s ++ a ≠ t ++ b := by
  intro he
  have hdata : s.data ++ a.data = t.data ++ b.data := by
    have h2 := congrArg String.data he
    simpa [String.data_append] using h2
  cases hsd : s.data with
  | nil => rw [hsd] at hc; simp at hc
  | cons x xs =>
    cases htd : t.data with
    | nil => rw [htd] at hd; simp at hd
    | cons y ys =>
      rw [hsd] at hc hdata
      rw [htd] at hd hdata
      simp only [List.head?_cons, Option.some.injEq] at hc hd
      simp only [List.cons_append, List.cons.injEq] at hdata
      exact hcd (by rw [← hc, ← hd]; exact hdata.1)

theorem mem_cond_singleton {α : Type} {x y : α} {c : Prop} [Decidable c] :
    (x ∈ (if c then [y] else ([] : List α))) ↔ c ∧ x = y := by
  split
  · rename_i h; simp [h]
  · rename_i h; simp [h]

/-- The attribute area of a node shows the value line exactly when the
value is truthy and its stringification is not the title. -/
theorem nodeCols_value_line_iff (kvs : List (String × Value)) :
    (("Value: " ++ pyStr (getD kvs "value" (.vstr ""))) ∈ nodeCol1 kvs ++ nodeCol2 kvs) ↔
      ((getD kvs "value" (.vstr "")).truthy = true ∧
        Value.vstr (pyStr (getD kvs "value" (.vstr ""))) ≠ getD kvs "title" (.vstr "")) := by
  have hT := fun a b => ne_of_data_head "Value: " "Title: " a b 'V' 'T'
    (by decide) (by decide) (by decide)
  have hB := fun a b => ne_of_data_head "Value: " "Bounds: " a b 'V' 'B'
    (by decide) (by decide) (by decide)
  have hE := fun a b => ne_of_data_head "Value: " "Enabled: " a b 'V' 'E'
    (by decide) (by decide) (by decide)
  have hD := fun a b => ne_of_data_head "Value: " "Description: " a b 'V' 'D'
    (by decide) (by decide) (by decide)
  have hH := fun a b => ne_of_data_head "Value: " "Help: " a b 'V' 'H'
    (by decide) (by decide) (by decide)
  have hS := fun a b => ne_of_data_head "Value: " "Subrole: " a b 'V' 'S'
    (by decide) (by decide) (by decide)
  simp only [nodeCol1, nodeCol2, List.append_assoc, List.mem_append, mem_cond_singleton]
  constructor
  · rintro (h | h | h | h | h | h | h) <;>
      first
      | exact h.1
      | exact absurd h.2 (hT _ _)
      | exact absurd h.2 (hB _ _)
      | exact absurd h.2 (hE _ _)
      | exact absurd h.2 (hD _ _)
      | exact absurd h.2 (hH _ _)
      | exact absurd h.2 (hS _ _)
  · intro h
    exact Or.inr (Or.inl ⟨h, trivial⟩)

/-- Every section emitted for a dictionary node carries the label, the
expansion state and the two attribute columns computed from that node. -/
theorem display_vdict_inv (kvs : List (String × Value)) (md cd : Int)
    (secs : List DSection) (s : DSection)
    (h : display_tree_structure (.vdict kvs) md cd = some secs) (hs : s ∈ secs) :
    s.label = nodeLabel kvs ∧ s.expanded = decide (cd < 2) ∧
      s.col1 = nodeCol1 kvs ∧ s.col2 = nodeCol2 kvs := by
  rw [display_tree_structure.eq_def] at h
  split at h
  · injection h with h
    subst h
    simp at hs
  · simp only [] at h
    cases hck : displayChildrenKV kvs md cd with
    | none => rw [hck] at h; simp at h
    | some p =>
      rw [hck] at h
      obtain ⟨cl, cs⟩ := p
      simp only [Option.some.injEq] at h
      subst h
      simp only [List.mem_singleton] at hs
      subst hs
      exact ⟨rfl, rfl, rfl, rfl⟩

/-- A machine address in the heap model of the Python object store. -/
abbrev Addr := Nat

/-- A Python object as stored on the heap: scalars carry their value,
lists and dictionaries hold the addresses of their members.  This is the
one-level view the interpreter has of an object; the tree structure lives
in the addresses. -/
inductive PObj where
  | hnone
  | hbool (b : Bool)
  | hint (n : Int)
  | hstr (s : String)
  | hlist (elems : List Addr)
  | hdict (kvs : List (String × Addr))

/-- A heap: a finite map from addresses to objects. -/
abbrev Heap := List (Addr × PObj)

/-- Read the object stored at an address. -/
def Heap.read (h : Heap) (a : Addr) : Option PObj :=
  match h with
  | [] => none
  | (a1, o) :: rest => if a1 = a then some o else Heap.read rest a

/-- Lookup of a key in a dictionary object, yielding the stored address. -/
def lookupAddr (k : String) : List (String × Addr) → Option Addr
  | [] => none
  | (k1, a) :: rest => if k1 = k then some a else lookupAddr k rest

/-- The hashable scalar value of an object, used when the object serves as
a dictionary key; lists and dictionaries are unhashable, a TypeError. -/
def PObj.scalar : PObj → Option Value
  | .hnone => some .vnone
  | .hbool b => some (.vbool b)
  | .hint n => some (.vint n)
  | .hstr s => some (.vstr s)
  | _ => none

/-- Python truthiness of a heap object. -/
def PObj.falsy : PObj → Bool
  | .hnone => true
  | .hbool b => !b
  | .hint n => n = 0
  | .hstr s => s = ""
  | .hlist xs => xs.isEmpty
  | .hdict kvs => kvs.isEmpty

/-- Identity with the `None` singleton, the `is None` test. -/
def PObj.isNone : PObj → Bool
  | .hnone => true
  | _ => false

mutual
/-- Python `repr` of the object at an address, following member addresses
through the heap; `fuel` bounds the depth. -/
def pyRepr_st (fuel : Nat) (h : Heap) (a : Addr) : Option String :=
  match fuel with
  | 0 => none
  | fuel + 1 =>
    match h.read a with
    | none => none
    | some .hnone => some "None"
    | some (.hbool true) => some "True"
    | some (.hbool false) => some "False"
    | some (.hint n) => some (toString n)
    | some (.hstr s) => some (pyReprString s)
    | some (.hlist elems) => (pyReprList_st fuel h elems).map (fun body => "[" ++ body ++ "]")
    | some (.hdict kvs) =>
      (pyReprKVs_st fuel h kvs).map (fun body => "\x7b" ++ body ++ "\x7d")
termination_by (fuel, 0)

/-- Comma-separated `repr` of the objects at a list of addresses. -/
def pyReprList_st (fuel : Nat) (h : Heap) (elems : List Addr) : Option String :=
  match elems with
  | [] => some ""
  | [a] => pyRepr_st fuel h a
  | a :: a2 :: rest =>
    match pyRepr_st fuel h a, pyReprList_st fuel h (a2 :: rest) with
    | some s1, some s2 => some (s1 ++ ", " ++ s2)
    | _, _ => none
termination_by (fuel, elems.length + 1)

/-- Comma-separated `repr` of dictionary entries. -/
def pyReprKVs_st (fuel : Nat) (h : Heap) (kvs : List (String × Addr)) : Option String :=
  match kvs with
  | [] => some ""
  | [(k, a)] => (pyRepr_st fuel h a).map (fun s => pyReprString k ++ ": " ++ s)
  | (k, a) :: kv2 :: rest =>
    match pyRepr_st fuel h a, pyReprKVs_st fuel h (kv2 :: rest) with
    | some s1, some s2 => some (pyReprString k ++ ": " ++ s1 ++ ", " ++ s2)
    | _, _ => none
termination_by (fuel, kvs.length + 1)
end

/-- Python `str` of the object at an address. -/
def pyStr_st (fuel : Nat) (h : Heap) (a : Addr) : Option String :=
  match h.read a with
  | some (.hstr s) => some s
  | _ => pyRepr_st fuel h a

/-- `tree.get(k, d)` on the heap at the object level: the stored object,
or the default object `d` when the key is absent; `none` marks a dangling
address. -/
def getObj_st (h : Heap) (kvs : List (String × Addr)) (k : String) (d : PObj) : Option PObj :=
  match lookupAddr k kvs with
  | none => some d
  | some a => h.read a

/-- The `str` of `tree.get(k, dflt)` where `dflt` is the string the
default object prints as. -/
def pyStrObj_st (fuel : Nat) (h : Heap) (kvs : List (String × Addr)) (k : String)
    (d : String) : Option String :=
  match lookupAddr k kvs with
  | none => some d
  | some a => pyStr_st fuel h a

/-- Python `s != o` for a string `s` and an arbitrary object `o`: content
inequality against a string, `True` against anything else. -/
def strNeObj (s : String) (o : PObj) : Bool :=
  match o with
  | .hstr t => s ≠ t
  | _ => true

/-- The expander label of line 86, computed over the heap. -/
def nodeLabel_st (fuel : Nat) (h : Heap) (kvs : List (String × Addr)) : Option String :=
  match pyStrObj_st fuel h kvs "role" "Unknown", getObj_st h kvs "title" (.hstr ""),
      pyStrObj_st fuel h kvs "title" "" with
  | some roleS, some titleO, some titleS =>
    some ("📱 " ++ roleS ++ (if !titleO.falsy then " - " ++ titleS else ""))
  | _, _, _ => none

/-- The left attribute column of lines 89-97, computed over the heap. -/
def nodeCol1_st (fuel : Nat) (h : Heap) (kvs : List (String × Addr)) : Option (List String) :=
  match getObj_st h kvs "title" (.hstr ""), pyStrObj_st fuel h kvs "title" "",
      getObj_st h kvs "value" (.hstr ""), pyStrObj_st fuel h kvs "value" "",
      getObj_st h kvs "bounds" .hnone, pyStrObj_st fuel h kvs "bounds" "None" with
  | some titleO, some titleS, some valueO, some valueS, some boundsO, some boundsS =>
    match getObj_st h kvs "enabled" .hnone, pyStrObj_st fuel h kvs "enabled" "None" with
    | some enabledO, some enabledS =>
      some (
        (if !titleO.falsy then ["Title: " ++ titleS] else []) ++
        (if !valueO.falsy && strNeObj valueS titleO then ["Value: " ++ valueS] else []) ++
        (if !boundsO.falsy then ["Bounds: " ++ boundsS] else []) ++
        (if !enabledO.isNone then ["Enabled: " ++ enabledS] else []))
    | _, _ => none
  | _, _, _, _, _, _ => none

/-- The right attribute column of lines 99-105, computed over the heap. -/
def nodeCol2_st (fuel : Nat) (h : Heap) (kvs : List (String × Addr)) : Option (List String) :=
  match getObj_st h kvs "description" .hnone, pyStrObj_st fuel h kvs "description" "None",
      getObj_st h kvs "help" .hnone, pyStrObj_st fuel h kvs "help" "None",
      getObj_st h kvs "subrole" .hnone, pyStrObj_st fuel h kvs "subrole" "None" with
  | some descO, some descS, some helpO, some helpS, some subO, some subS =>
    some (
      (if !descO.falsy then ["Description: " ++ descS] else []) ++
      (if !helpO.falsy then ["Help: " ++ helpS] else []) ++
      (if !subO.falsy then ["Subrole: " ++ subS] else []))
  | _, _, _, _, _, _ => none

mutual
/-- `count_elements` run over the explicit heap: the object store is
threaded through the whole traversal, exactly as the interpreter carries
the mutable object graph, so a write anywhere would surface as a changed
heap in the result.  `fuel` bounds the recursion depth (the interpreter
recursion limit); `none` is a raised exception or exhausted fuel. -/
def count_elements_st (fuel : Nat) (h : Heap) (node : Addr) (counts : Counts) :
    Option (Heap × Counts) :=
  match fuel with
  | 0 => none
  | fuel + 1 =>
    match h.read node with
    | none => none
    | some (.hdict kvs) =>
      match (match lookupAddr "role" kvs with
             | none => some (Value.vstr "Unknown")
             | some ra => (h.read ra).bind PObj.scalar) with
      | none => none
      | some key =>
        match lookupAddr "children" kvs with
        | none => some (h, counts.incr key)
        | some ca =>
          match h.read ca with
          | some (.hlist elems) => count_list_st fuel h elems (counts.incr key)
          | some (.hstr _) => some (h, counts.incr key)
          | some (.hdict _) => some (h, counts.incr key)
          | _ => none
    | some _ => some (h, counts)
termination_by (fuel, 0)

/-- The loop over the children addresses, threading the heap. -/
def count_list_st (fuel : Nat) (h : Heap) (elems : List Addr) (counts : Counts) :
    Option (Heap × Counts) :=
  match elems with
  | [] => some (h, counts)
  | a :: rest =>
    match count_elements_st fuel h a counts with
    | some (h2, counts2) => count_list_st fuel h2 rest counts2
    | none => none
termination_by (fuel, elems.length + 1)
end

mutual
/-- `display_tree_structure` run over the explicit heap, threading the
object store like `count_elements_st` does; the children lookup and loop
of lines 108-112 are inlined.  A dangling address, an `AttributeError`
on a truthy non-dictionary, a `TypeError` on a non-iterable `children`
value, and exhausted fuel are all `none`. -/
def display_st (fuel : Nat) (h : Heap) (node : Addr) (md cd : Int) :
    Option (Heap × List DSection) :=
  match fuel with
  | 0 => none
  | fuel + 1 =>
    match h.read node with
    | none => none
    | some o =>
      if cd > md || o.falsy then some (h, [])
      else match o with
        | .hdict kvs =>
          match nodeLabel_st fuel h kvs, nodeCol1_st fuel h kvs, nodeCol2_st fuel h kvs with
          | some label, some col1, some col2 =>
            (match lookupAddr "children" kvs with
             | none => some (h, none, [])
             | some ca =>
               match h.read ca with
               | none => none
               | some (.hlist elems) =>
                 if elems.isEmpty then some (h, none, [])
                 else
                   match display_list_st fuel h elems md (cd + 1) with
                   | some (h2, secs) =>
                     some (h2, some ("Children: " ++ toString elems.length), secs)
                   | none => none
               | some (.hstr s) =>
                 if s = "" then some (h, none, [])
                 else if cd + 1 > md then
                   some (h, some ("Children: " ++ toString s.length), [])
                 else none
               | some (.hdict kvs2) =>
                 if kvs2.isEmpty then some (h, none, [])
                 else if cd + 1 > md || kvs2.all (fun kv => kv.1 == "") then
                   some (h, some ("Children: " ++ toString kvs2.length), [])
                 else none
               | some o2 => if o2.falsy then some (h, none, []) else none :
               Option (Heap × Option String × List DSection)).map
              (fun p => (p.1, [.mk label (decide (cd < 2)) col1 col2 p.2.1 p.2.2]))
          | _, _, _ => none
        | _ => none
termination_by (fuel, 0)

/-- The loop of line 111 over the children addresses, threading the
heap. -/
def display_list_st (fuel : Nat) (h : Heap) (elems : List Addr) (md cd : Int) :
    Option (Heap × List DSection) :=
  match elems with
  | [] => some (h, [])
  | a :: rest =>
    match display_st fuel h a md cd with
    | some (h2, secs) =>
      match display_list_st fuel h2 rest md cd with
      | some (h3, more) => some (h3, secs ++ more)
      | none => none
    | none => none
termination_by (fuel, elems.length + 1)
end

theorem count_list_st_heap (fuel : Nat)
    (ihe : ∀ h a c h2 c2, count_elements_st fuel h a c = some (h2, c2) → h2 = h)
    (elems : List Addr) :
    ∀ h c h2 c2, count_list_st fuel h elems c = some (h2, c2) → h2 = h := by
  induction elems with
  | nil =>
    intro h c h2 c2 hh
    rw [count_list_st] at hh
    simp at hh
    exact hh.1.symm
  | cons a rest ih =>
    intro h c h2 c2 hh
    rw [count_list_st] at hh
    cases he : count_elements_st fuel h a c with
    | none => rw [he] at hh; simp at hh
    | some p =>
      obtain ⟨hm, cm⟩ := p
      rw [he] at hh
      have e1 := ihe h a c hm cm he
      have e2 := ih hm cm h2 c2 hh
      rw [e2, e1]

/-- The aggregator leaves the heap untouched: a successful heap run
returns exactly the heap it was given.  Each branch of the translation
threads the store it received; no branch writes. -/
theorem count_elements_st_heap (fuel : Nat) :
    ∀ h a c h2 c2, count_elements_st fuel h a c = some (h2, c2) → h2 = h := by
  induction fuel with
  | zero =>
    intro h a c h2 c2 hh
    rw [count_elements_st] at hh
    simp at hh
  | succ fuel ih =>
    intro h a c h2 c2 hh
    rw [count_elements_st] at hh
    split at hh
    · simp at hh
    · split at hh
      · simp at hh
      · split at hh
        · simp at hh
          exact hh.1.symm
        · split at hh
          · exact count_list_st_heap fuel ih _ h _ h2 c2 hh
          · simp at hh
            exact hh.1.symm
          · simp at hh
            exact hh.1.symm
          · simp at hh
    · simp at hh
      exact hh.1.symm

theorem display_list_st_heap (fuel : Nat)
    (ihe : ∀ h a md cd h2 secs, display_st fuel h a md cd = some (h2, secs) → h2 = h)
    (elems : List Addr) :
    ∀ h md cd h2 secs, display_list_st fuel h elems md cd = some (h2, secs) → h2 = h := by
  induction elems with
  | nil =>
    intro h md cd h2 secs hh
    rw [display_list_st] at hh
    simp at hh
    exact hh.1.symm
  | cons a rest ih =>
    intro h md cd h2 secs hh
    rw [display_list_st] at hh
    split at hh
    · rename_i hm sm heq
      split at hh
      · rename_i h3 more heq2
        simp at hh
        have e1 := ihe h a md cd hm sm heq
        have e2 := ih hm md cd h3 more heq2
        rw [← hh.1, e2, e1]
      · simp at hh
    · simp at hh

/-- The renderer leaves the heap untouched: a successful heap run returns
exactly the heap it was given. -/
theorem display_st_heap (fuel : Nat) :
    ∀ h a md cd h2 secs, display_st fuel h a md cd = some (h2, secs) → h2 = h := by
  induction fuel with
  | zero =>
    intro h a md cd h2 secs hh
    rw [display_st] at hh
    simp at hh
  | succ fuel ih =>
    intro h a md cd h2 secs hh
    rw [display_st] at hh
    split at hh
    · simp at hh
    · split at hh
      · simp at hh
        exact hh.1.symm
      · split at hh
        · split at hh
          · obtain ⟨p, hp, hpe⟩ := Option.map_eq_some'.1 hh
            obtain ⟨ph, pc, ps⟩ := p
            have hh2 : h2 = ph := by
              have := congrArg Prod.fst hpe
              simpa using this.symm
            rw [hh2]
            split at hp
            · simp at hp
              exact hp.1.symm
            · split at hp
              · simp at hp
              · split at hp
                · simp at hp
                  exact hp.1.symm
                · split at hp
                  · rename_i hm2 secs2 heq2
                    simp at hp
                    have e2 := display_list_st_heap fuel ih _ h md (cd + 1) hm2 secs2 heq2
                    rw [← hp.1]
                    exact e2
                  · simp at hp
              · split at hp
                · simp at hp
                  exact hp.1.symm
                · split at hp
                  · simp at hp
                    exact hp.1.symm
                  · simp at hp
              · split at hp
                · simp at hp
                  exact hp.1.symm
                · split at hp
                  · simp at hp
                    exact hp.1.symm
                  · simp at hp
              · split at hp
                · simp at hp
                  exact hp.1.symm
                · simp at hp
          · simp at hh
        · simp at hh

theorem Counts.lookup_nil (k : Value) : Counts.lookup [] k = none := rfl

theorem Counts.get0_nil (k : Value) : Counts.get0 [] k = 0 := rfl

/-- C1: for every well-formed accessibility tree, running the aggregator
with a fresh accumulator succeeds and returns a mapping whose values sum
exactly to the total number of nodes of the tree, root included. -/
theorem claim1_count_sums_to_numNodes (T : Value) (hwf : WF T) :
    ∃ r, count_elements T [] = some r ∧ sumCounts r = numNodes T := by
  obtain ⟨r, hr⟩ := (count_elements_isSome T).1 hwf []
  refine ⟨r, hr, ?_⟩
  have := (count_elements_sum T).1 [] r hr
  simpa [sumCounts] using this

theorem claim1_witness :
    WF (Value.vdict [("role", Value.vstr "Window"),
      ("children", Value.vlist [Value.vdict [("role", Value.vstr "Button")], Value.vdict []])]) ∧
    ∃ r, count_elements (Value.vdict [("role", Value.vstr "Window"),
        ("children", Value.vlist [Value.vdict [("role", Value.vstr "Button")],
          Value.vdict []])]) [] = some r ∧
      sumCounts r = numNodes (Value.vdict [("role", Value.vstr "Window"),
        ("children", Value.vlist [Value.vdict [("role", Value.vstr "Button")],
          Value.vdict []])]) :=
  ⟨by simp [WF, WFChildrenKV, WFIter, WFList],
    claim1_count_sums_to_numNodes _ (by simp [WF, WFChildrenKV, WFIter, WFList])⟩

/-- C2: for every well-formed accessibility tree, the key set of the
returned mapping is exactly the set of role values occurring anywhere in
the tree, nodes without a role key appearing as the role `"Unknown"`. -/
theorem claim2_keys_are_roles (T : Value) (hwf : WF T) (r : Counts)
    (h : count_elements T [] = some r) :
    ∀ k, (r.lookup k).isSome = true ↔ k ∈ rolesOf T := by
  intro k
  have hrel := (count_elements_rel T).1 [] r h k
  by_cases hm : k ∈ rolesOf T
  · rw [if_pos (Or.inr hm)] at hrel
    simp [hrel, hm]
  · rw [if_neg] at hrel
    · simp [hrel, hm]
    · intro hc
      rcases hc with hc | hc
      · simp [Counts.lookup_nil] at hc
      · exact hm hc

theorem claim2_witness :
    WF (Value.vdict [("role", Value.vstr "Window"),
      ("children", Value.vlist [Value.vdict [("role", Value.vstr "Button")]])]) ∧
    count_elements (Value.vdict [("role", Value.vstr "Window"),
      ("children", Value.vlist [Value.vdict [("role", Value.vstr "Button")]])]) [] =
      some [(Value.vstr "Window", 1), (Value.vstr "Button", 1)] ∧
    (((Counts.lookup [(Value.vstr "Window", 1), (Value.vstr "Button", 1)]
        (Value.vstr "Button")).isSome = true) ↔
      Value.vstr "Button" ∈ rolesOf (Value.vdict [("role", Value.vstr "Window"),
        ("children", Value.vlist [Value.vdict [("role", Value.vstr "Button")]])])) :=
  ⟨by simp [WF, WFChildrenKV, WFIter, WFList], by decide,
    claim2_keys_are_roles _ (by simp [WF, WFChildrenKV, WFIter, WFList]) _ (by decide)
      (Value.vstr "Button")⟩

/-- C3: every section the renderer emits for a dictionary node shows the
value line in its attribute area exactly when the value field is truthy
(present and non-empty) and its stringification is not equal to the title;
a non-string value is stringified before that comparison, and a value whose
stringification equals the title is suppressed. -/
theorem claim3_value_line_iff (kvs : List (String × Value)) (md cd : Int)
    (secs : List DSection) (s : DSection)
    (h : display_tree_structure (.vdict kvs) md cd = some secs) (hs : s ∈ secs) :
    (("Value: " ++ pyStr (getD kvs "value" (.vstr ""))) ∈ s.col1 ++ s.col2) ↔
      ((getD kvs "value" (.vstr "")).truthy = true ∧
        Value.vstr (pyStr (getD kvs "value" (.vstr ""))) ≠ getD kvs "title" (.vstr "")) := by
  obtain ⟨hl, he, hc1, hc2⟩ := display_vdict_inv kvs md cd secs s h hs
  rw [hc1, hc2]
  exact nodeCols_value_line_iff kvs

theorem claim3_witness :
    (("Value: " ++ pyStr (getD [("role", Value.vstr "Field"), ("title", Value.vstr "Name"),
        ("value", Value.vint 7)] "value" (Value.vstr ""))) ∈
      (DSection.mk "📱 Field - Name" true ["Title: Name", "Value: 7"] [] none []).col1 ++
        (DSection.mk "📱 Field - Name" true ["Title: Name", "Value: 7"] [] none []).col2) ↔
      ((getD [("role", Value.vstr "Field"), ("title", Value.vstr "Name"),
          ("value", Value.vint 7)] "value" (Value.vstr "")).truthy = true ∧
        Value.vstr (pyStr (getD [("role", Value.vstr "Field"), ("title", Value.vstr "Name"),
          ("value", Value.vint 7)] "value" (Value.vstr ""))) ≠
          getD [("role", Value.vstr "Field"), ("title", Value.vstr "Name"),
            ("value", Value.vint 7)] "title" (Value.vstr "")) :=
  claim3_value_line_iff [("role", Value.vstr "Field"), ("title", Value.vstr "Name"),
    ("value", Value.vint 7)] 3 0
    [DSection.mk "📱 Field - Name" true ["Title: Name", "Value: 7"] [] none []]
    (DSection.mk "📱 Field - Name" true ["Title: Name", "Value: 7"] [] none [])
    rfl (by simp)

/-- C4 counterexample: the claim says the label of a rendered node is
exactly the bare string built from role and title.  At the node with role
`"Window"` and title `"OK"` the renderer emits the label
`"📱 Window - OK"`, which differs from both claimed formats; and at a node
whose title is present but empty the label omits the title part entirely,
against the claimed present-title format. -/
theorem claim4_counterexample :
    ((display_tree_structure (.vdict [("role", .vstr "Window"), ("title", .vstr "OK")]) 3 0).map
        (fun l => l.map DSection.label) = some ["📱 Window - OK"] ∧
      "📱 Window - OK" ≠ "Window - OK" ∧ "📱 Window - OK" ≠ "Window") ∧
    ((display_tree_structure (.vdict [("role", .vstr "Window"), ("title", .vstr "")]) 3 0).map
        (fun l => l.map DSection.label) = some ["📱 Window"] ∧
      "📱 Window" ≠ "Window - ") :=
  ⟨⟨rfl, by decide, by decide⟩, ⟨rfl, by decide⟩⟩

/-- C4 (amended): every section the renderer emits for a dictionary node
is labeled `"📱 {role}"` when the title is absent or falsy, and
`"📱 {role} - {title}"` when the title is truthy. -/
theorem claim4_label_format (kvs : List (String × Value)) (md cd : Int)
    (secs : List DSection) (s : DSection)
    (h : display_tree_structure (.vdict kvs) md cd = some secs) (hs : s ∈ secs) :
    if (getD kvs "title" (.vstr "")).truthy = true then
      s.label = "📱 " ++ pyStr (getD kvs "role" (.vstr "Unknown")) ++ " - " ++
        pyStr (getD kvs "title" (.vstr ""))
    else
      s.label = "📱 " ++ pyStr (getD kvs "role" (.vstr "Unknown")) := by
  obtain ⟨hl, _, _, _⟩ := display_vdict_inv kvs md cd secs s h hs
  rw [hl, nodeLabel]
  split
  · rename_i ht
    simp only [ht, if_true, String.append_assoc]
  · rename_i ht
    simp only [Bool.not_eq_true] at ht
    simp [ht]

theorem claim4_witness :
    if (getD [("role", Value.vstr "Window"), ("title", Value.vstr "OK")] "title"
        (Value.vstr "")).truthy = true then
      (DSection.mk "📱 Window - OK" true ["Title: OK"] [] none []).label =
        "📱 " ++ pyStr (getD [("role", Value.vstr "Window"), ("title", Value.vstr "OK")]
          "role" (Value.vstr "Unknown")) ++ " - " ++
        pyStr (getD [("role", Value.vstr "Window"), ("title", Value.vstr "OK")] "title"
          (Value.vstr ""))
    else
      (DSection.mk "📱 Window - OK" true ["Title: OK"] [] none []).label =
        "📱 " ++ pyStr (getD [("role", Value.vstr "Window"), ("title", Value.vstr "OK")]
          "role" (Value.vstr "Unknown")) :=
  claim4_label_format [("role", Value.vstr "Window"), ("title", Value.vstr "OK")] 3 0
    [DSection.mk "📱 Window - OK" true ["Title: OK"] [] none []]
    (DSection.mk "📱 Window - OK" true ["Title: OK"] [] none [])
    rfl (by simp)

/-- C5: rendering a truthy well-formed tree with both depth arguments
zero emits exactly one section, the root, with no nested child section. -/
theorem claim5_depth_zero_one_section (T : Value) (hwf : WF T) (ht : T.falsy = false) :
    ∃ s, display_tree_structure T 0 0 = some [s] ∧ s.children = [] := by
  cases T with
  | vdict kvs =>
    rw [WF] at hwf
    obtain ⟨cl, hcl⟩ := displayChildrenKV_of_depth kvs 0 0 (by omega) hwf
    refine ⟨.mk (nodeLabel kvs) (decide ((0 : Int) < 2)) (nodeCol1 kvs) (nodeCol2 kvs) cl [],
      ?_, rfl⟩
    rw [display_tree_structure.eq_def]
    split
    · rename_i hc
      simp only [Bool.or_eq_true, decide_eq_true_eq] at hc
      rcases hc with hc | hc
      · omega
      · rw [ht] at hc; cases hc
    · simp only [hcl]
  | vnone => exact absurd hwf (by simp [WF])
  | vbool b => exact absurd hwf (by simp [WF])
  | vint n => exact absurd hwf (by simp [WF])
  | vstr s => exact absurd hwf (by simp [WF])
  | vlist xs => exact absurd hwf (by simp [WF])

theorem claim5_witness :
    WF (Value.vdict [("role", Value.vstr "App"),
      ("children", Value.vlist [Value.vdict [("role", Value.vstr "Button")]])]) ∧
    (Value.vdict [("role", Value.vstr "App"),
      ("children", Value.vlist [Value.vdict [("role", Value.vstr "Button")]])]).falsy = false ∧
    ∃ s, display_tree_structure (Value.vdict [("role", Value.vstr "App"),
        ("children", Value.vlist [Value.vdict [("role", Value.vstr "Button")]])]) 0 0 =
      some [s] ∧ s.children = [] :=
  ⟨by simp [WF, WFChildrenKV, WFIter, WFList], rfl,
    claim5_depth_zero_one_section _ (by simp [WF, WFChildrenKV, WFIter, WFList]) rfl⟩

/-- C6: a value that is not a dictionary is a silent no-op for the
aggregator: the accumulator comes back unchanged and no error is
raised. -/
theorem claim6_non_dict_no_op (v : Value) (acc : Counts) (hv : v.isDict = false) :
    count_elements v acc = some acc := by
  cases v <;> simp [count_elements] <;> simp [Value.isDict] at hv

theorem claim6_witness :
    (Value.vlist [Value.vdict [("role", Value.vstr "X")]]).isDict = false ∧
    count_elements (Value.vlist [Value.vdict [("role", Value.vstr "X")]])
      [(Value.vstr "X", 2)] = some [(Value.vstr "X", 2)] :=
  ⟨rfl, claim6_non_dict_no_op _ _ rfl⟩

/-- C7: with a pre-existing accumulator the aggregator adds to it rather
than replacing it: each resulting count is the pointwise sum of the
accumulator count and the fresh-run count, and a key is bound afterwards
exactly when it was bound before or the fresh run binds it. -/
theorem claim7_accumulator_adds (T : Value) (hwf : WF T) (acc r r0 : Counts)
    (h1 : count_elements T acc = some r) (h0 : count_elements T [] = some r0) :
    ∀ k, r.get0 k = acc.get0 k + r0.get0 k ∧
      ((r.lookup k).isSome = true ↔
        (acc.lookup k).isSome = true ∨ (r0.lookup k).isSome = true) := by
  intro k
  have e1 := (count_elements_rel T).1 acc r h1 k
  have e0 := (count_elements_rel T).1 [] r0 h0 k
  rw [Counts.lookup_nil] at e0
  simp only [Option.isSome_none, Bool.false_eq_true, false_or, Counts.get0_nil,
    Nat.zero_add] at e0
  by_cases hm : k ∈ rolesOf T
  · have e0b : r0.lookup k = some (countKey (rolesOf T) k) := by rw [e0, if_pos hm]
    have e1b : r.lookup k = some (acc.get0 k + countKey (rolesOf T) k) := by
      rw [e1, if_pos (Or.inr hm)]
    constructor
    · simp [Counts.get0, e1b, e0b]
    · simp [e1b, e0b]
  · have e0b : r0.lookup k = none := by rw [e0, if_neg hm]
    have hk0 : countKey (rolesOf T) k = 0 := countKey_eq_zero_of_not_mem hm
    by_cases hA : (acc.lookup k).isSome = true
    · have e1b : r.lookup k = some (acc.get0 k + countKey (rolesOf T) k) := by
        rw [e1, if_pos (Or.inl hA)]
      constructor
      · simp [Counts.get0, e1b, e0b, hk0]
      · simp [e1b, e0b, hA]
    · have e1b : r.lookup k = none := by
        rw [e1, if_neg]
        intro hc
        rcases hc with hc | hc
        · exact hA hc
        · exact hm hc
      have hln : acc.lookup k = none := by
        cases hl : acc.lookup k with
        | none => rfl
        | some m => exact absurd (by simp [hl]) hA
      constructor
      · simp [Counts.get0, e1b, e0b, hln]
      · simp [e1b, e0b, hA]

theorem claim7_witness :
    WF (Value.vdict [("role", Value.vstr "A"),
      ("children", Value.vlist [Value.vdict [("role", Value.vstr "A")]])]) ∧
    count_elements (Value.vdict [("role", Value.vstr "A"),
        ("children", Value.vlist [Value.vdict [("role", Value.vstr "A")]])])
      [(Value.vstr "A", 3), (Value.vstr "Z", 1)] =
      some [(Value.vstr "A", 5), (Value.vstr "Z", 1)] ∧
    count_elements (Value.vdict [("role", Value.vstr "A"),
        ("children", Value.vlist [Value.vdict [("role", Value.vstr "A")]])]) [] =
      some [(Value.vstr "A", 2)] ∧
    (Counts.get0 [(Value.vstr "A", 5), (Value.vstr "Z", 1)] (Value.vstr "A") =
      Counts.get0 [(Value.vstr "A", 3), (Value.vstr "Z", 1)] (Value.vstr "A") +
        Counts.get0 [(Value.vstr "A", 2)] (Value.vstr "A") ∧
      ((Counts.lookup [(Value.vstr "A", 5), (Value.vstr "Z", 1)]
          (Value.vstr "A")).isSome = true ↔
        (Counts.lookup [(Value.vstr "A", 3), (Value.vstr "Z", 1)]
          (Value.vstr "A")).isSome = true ∨
        (Counts.lookup [(Value.vstr "A", 2)] (Value.vstr "A")).isSome = true)) :=
  ⟨by simp [WF, WFChildrenKV, WFIter, WFList], by decide, by decide,
    claim7_accumulator_adds
      (Value.vdict [("role", Value.vstr "A"),
        ("children", Value.vlist [Value.vdict [("role", Value.vstr "A")]])])
      (by simp [WF, WFChildrenKV, WFIter, WFList])
      [(Value.vstr "A", 3), (Value.vstr "Z", 1)]
      [(Value.vstr "A", 5), (Value.vstr "Z", 1)]
      [(Value.vstr "A", 2)]
      (by decide) (by decide) (Value.vstr "A")⟩

/-- C8: the aggregation is independent of sibling order: on a well-formed
tree and on its copy with every children list reversed, the two returned
mappings bind every key to the same count. -/
theorem claim8_sibling_order_independent (T : Value) (hwf : WF T) (r r2 : Counts)
    (h1 : count_elements T [] = some r) (h2 : count_elements (revTree T) [] = some r2) :
    ∀ k, r.lookup k = r2.lookup k := by
  intro k
  have e1 := (count_elements_rel T).1 [] r h1 k
  have e2 := (count_elements_rel (revTree T)).1 [] r2 h2 k
  have hcnt := (revTree_rolesOf_countKey T).1 k
  have hmem := revTree_rolesOf_mem T k
  rw [e1, e2, Counts.lookup_nil]
  by_cases hm : k ∈ rolesOf T
  · rw [if_pos (Or.inr hm), if_pos (Or.inr (hmem.2 hm)), hcnt]
  · rw [if_neg, if_neg]
    all_goals
      intro hc
      rcases hc with hc | hc
      · simp at hc
      · first
        | exact hm hc
        | exact hm (hmem.1 hc)

theorem claim8_witness :
    WF (Value.vdict [("role", Value.vstr "W"),
      ("children", Value.vlist [Value.vdict [("role", Value.vstr "B")],
        Value.vdict [("role", Value.vstr "T")]])]) ∧
    count_elements (Value.vdict [("role", Value.vstr "W"),
        ("children", Value.vlist [Value.vdict [("role", Value.vstr "B")],
          Value.vdict [("role", Value.vstr "T")]])]) [] =
      some [(Value.vstr "W", 1), (Value.vstr "B", 1), (Value.vstr "T", 1)] ∧
    count_elements (revTree (Value.vdict [("role", Value.vstr "W"),
        ("children", Value.vlist [Value.vdict [("role", Value.vstr "B")],
          Value.vdict [("role", Value.vstr "T")]])])) [] =
      some [(Value.vstr "W", 1), (Value.vstr "T", 1), (Value.vstr "B", 1)] ∧
    Counts.lookup [(Value.vstr "W", 1), (Value.vstr "B", 1), (Value.vstr "T", 1)]
        (Value.vstr "B") =
      Counts.lookup [(Value.vstr "W", 1), (Value.vstr "T", 1), (Value.vstr "B", 1)]
        (Value.vstr "B") :=
  ⟨by simp [WF, WFChildrenKV, WFIter, WFList], by decide, by decide,
    claim8_sibling_order_independent
      (Value.vdict [("role", Value.vstr "W"),
        ("children", Value.vlist [Value.vdict [("role", Value.vstr "B")],
          Value.vdict [("role", Value.vstr "T")]])])
      (by simp [WF, WFChildrenKV, WFIter, WFList])
      [(Value.vstr "W", 1), (Value.vstr "B", 1), (Value.vstr "T", 1)]
      [(Value.vstr "W", 1), (Value.vstr "T", 1), (Value.vstr "B", 1)]
      (by decide) (by decide) (Value.vstr "B")⟩

/-- C9: neither traversal function mutates the input tree: in the
explicit-heap embedding, where the Python object store is threaded through
both functions, every successful run of the aggregator and every
successful run of the renderer returns the heap it was given, so every
node and every field of every node reads back unchanged. -/
theorem claim9_no_mutation :
    (∀ fuel h a c h2 c2, count_elements_st fuel h a c = some (h2, c2) → h2 = h) ∧
    (∀ fuel h a md cd h2 secs, display_st fuel h a md cd = some (h2, secs) → h2 = h) :=
  ⟨fun fuel => count_elements_st_heap fuel, fun fuel => display_st_heap fuel⟩

theorem claim9_witness :
    count_elements_st 2 [(0, PObj.hdict [("role", 1)]), (1, PObj.hstr "W")] 0 [] =
      some ([(0, PObj.hdict [("role", 1)]), (1, PObj.hstr "W")], [(Value.vstr "W", 1)]) ∧
    ([(0, PObj.hdict [("role", 1)]), (1, PObj.hstr "W")] : Heap) =
      [(0, PObj.hdict [("role", 1)]), (1, PObj.hstr "W")] := by
  have heq : count_elements_st 2 [(0, PObj.hdict [("role", 1)]), (1, PObj.hstr "W")] 0 [] =
      some ([(0, PObj.hdict [("role", 1)]), (1, PObj.hstr "W")], [(Value.vstr "W", 1)]) := by
    simp [count_elements_st, Heap.read, lookupAddr, PObj.scalar, Counts.incr, Counts.set,
      Counts.get0, Counts.lookup]
  exact ⟨heq, claim9_no_mutation.1 2 _ 0 [] _ _ heq⟩

/-- C10: the renderer emits nothing for the empty mapping, at every pair
of depth arguments: an empty dictionary is falsy and is treated like an
absent node, not rendered as an `"Unknown"` section. -/
theorem claim10_empty_mapping_no_output (md cd : Int) :
    display_tree_structure (.vdict []) md cd = some [] := by
  apply display_falsy
  rfl
